import Mathlib

/-!
Shallow embedding of `src/map_example.py` (microspectrometer/map-example).

A Python string is modelled as a `List Char`.  A text file is modelled as the
list of its lines, each line given *without* its trailing newline character
(Python file iteration yields each line with the newline attached; since a
line's content contains no newline, `line.startswith('\n')` holds exactly when
the content is empty, and `line.strip('\n')` returns exactly the content).
-/

set_option maxHeartbeats 1000000

namespace MapExample

/-- A Python string modelled as a list of characters. -/
abbrev PyStr := List Char

/-- Python `line.split('\t')`: split a string on the tab character.
The result is never empty; splitting the empty string yields `[""]`. -/
def splitTab : PyStr → List PyStr
  | [] => [[]]
  | c :: rest =>
    if c = '\t' then [] :: splitTab rest
    else
      match splitTab rest with
      | [] => [[c]]
      | f :: fs => (c :: f) :: fs

/-- Python `"\t".join(fields)`. -/
def joinTab : List PyStr → PyStr
  | [] => []
  | [f] => f
  | f :: fs => f ++ '\t' :: joinTab fs

/-- The guard of the generator on lines 130-135 of `map_example.py`:
`if not line.startswith('#') and not line.startswith('\n')`.  On a line's
content (newline removed) this keeps exactly the non-empty lines whose first
character is not `'#'`. -/
def keepLine (l : PyStr) : Bool :=
  match l with
  | [] => false
  | c :: _ => c ≠ '#'

/-- The surviving data rows: comment and blank lines removed, each remaining
line split on tabs (`line.strip('\n').split('\t')` for the kept lines). -/
def survivingRows (file : List PyStr) : List (List PyStr) :=
  (file.filter keepLine).map splitTab

/-- The minimum field count over a list of rows (0 when there are no rows);
this is the number of tuples Python `zip(*rows)` produces. -/
def minFieldCount {α : Type} : List (List α) → Nat
  | [] => 0
  | [r] => r.length
  | r :: s :: rs => min r.length (minFieldCount (s :: rs))

/-- Python `zip(r, *rs)`: repeatedly take the next element of every list,
stopping as soon as any list is exhausted.  Structural recursion on the
first list `r`. -/
def pyZipAux {α : Type} [Inhabited α] : List α → List (List α) → List (List α)
  | [], _ => []
  | x :: xs, rs =>
    if rs.any (fun row => row.isEmpty) then []
    else (x :: rs.map (fun row => row.headD default)) :: pyZipAux xs (rs.map (fun row => row.tail))

/-- Python `tuple(zip(*rows))`: transpose by zipping, truncating every row to
the minimum row length; `zip()` of no rows yields the empty tuple. -/
def pyZip {α : Type} [Inhabited α] : List (List α) → List (List α)
  | [] => []
  | r :: rs => pyZipAux r rs

/-- `strings_from_data_columns` (lines 127-138 of `map_example.py`): keep the
non-comment non-blank lines, split each on tabs, and transpose with
`tuple(zip(*data))`. -/
def strings_from_data_columns (file : List PyStr) : List (List PyStr) :=
  pyZip (survivingRows file)

/-- Whitespace characters stripped and accepted around the digits by the
Python builtin `int` (ASCII subset). -/
def isPySpace (c : Char) : Bool :=
  c = ' ' || c = '\t' || c = '\n' || c = '\r' || c = '\x0B' || c = '\x0C'

/-- Strip leading and trailing whitespace, as `int` does before parsing. -/
def pyStrip (s : PyStr) : PyStr :=
  ((s.dropWhile isPySpace).reverse.dropWhile isPySpace).reverse

/-- Value of a non-empty string of decimal digits. -/
def digitsVal (ds : PyStr) : Nat :=
  ds.foldl (fun a c => 10 * a + (c.toNat - 48)) 0

/-- The Python builtin `int(string)` on an ASCII decimal field: strip
surrounding whitespace, accept one optional leading sign, then require a
non-empty run of decimal digits; anything else raises `ValueError`,
modelled as `none`. -/
def pyInt (s : PyStr) : Option Int :=
  match pyStrip s with
  | [] => none
  | c :: rest =>
    let core : PyStr := if c = '+' ∨ c = '-' then rest else c :: rest
    let sign : Int := if c = '-' then -1 else 1
    if core ≠ [] ∧ (∀ d ∈ core, d.isDigit) then some (sign * (digitsVal core : Int))
    else none

/-- Python `[int(string) for string in col]`: the first failing field makes
the whole comprehension raise, modelled as `none`. -/
def mapIntCol : List PyStr → Option (List Int)
  | [] => some []
  | s :: rest =>
    match pyInt s, mapIntCol rest with
    | some v, some vs => some (v :: vs)
    | _, _ => none

/-- Conversion of every column, first failure propagating. -/
def mapIntCols : List (List PyStr) → Option (List (List Int))
  | [] => some []
  | c :: cs =>
    match mapIntCol c, mapIntCols cs with
    | some col, some cols => some (col :: cols)
    | _, _ => none

/-- `ints_from_data_columns` (lines 178-181 of `map_example.py`): parse the
string columns and convert every entry with `int`. -/
def ints_from_data_columns (file : List PyStr) : Option (List (List Int)) :=
  mapIntCols (strings_from_data_columns file)

/-- A reply of `kit.captureFrame()`: a declared pixel count and the ordered
per-pixel counts. -/
structure Reply where
  num_pixels : Nat
  pixels : List Int

/-- `start_pixel = pix[0]` (line 188). -/
def start_pixel (pix : List Int) : Int := pix.headD 0

/-- `stop_pixel = pix[-1]` (line 188). -/
def stop_pixel (pix : List Int) : Int := pix.getLastD 0

/-- `frame = dict(zip(range(1, reply.num_pixels+1), reply.pixels))`
(lines 219-222): the key-value pairs in insertion order.  Keys `i+1` are
distinct, so the dict holds exactly these pairs in this order. -/
def frameDict (reply : Reply) : List (Int × Int) :=
  (List.range (min reply.num_pixels reply.pixels.length)).map
    (fun i => (Int.ofNat i + 1, reply.pixels.getD i 0))

/-- The dict items surviving the guard `start_pixel <= pixel <= stop_pixel`
(lines 225-227), in dict iteration order. -/
def filteredFrame (start stop : Int) (reply : Reply) : List (Int × Int) :=
  (frameDict reply).filter (fun pc => decide (start ≤ pc.1 ∧ pc.1 ≤ stop))

/-- The counts list `[frame[pixel] for pixel in frame if start_pixel <= pixel
<= stop_pixel]` (lines 225-227). -/
def loggedCounts (start stop : Int) (reply : Reply) : List Int :=
  (filteredFrame start stop reply).map Prod.snd

/-- The comma-separated fields of the header line
`",".join([str(w) for w in wav])` (line 205). -/
def headerFields (wav : List Int) : List String :=
  wav.map toString

/-- The comma-separated fields of one logged data line
`",".join([str(frame[pixel]) for pixel in frame if ...])` (lines 225-227). -/
def dataLineFields (start stop : Int) (reply : Reply) : List String :=
  (loggedCounts start stop reply).map toString

/-- The sign denoted by an optional sign character. -/
def signVal (sgn : PyStr) : Int :=
  if sgn = ['-'] then -1 else 1

/-- A whitespace character other than tab or newline (a field of a
tab-separated line can contain neither). -/
def fieldSpace (c : Char) : Prop :=
  isPySpace c = true ∧ c ≠ '\t' ∧ c ≠ '\n'

/-- A field that is a base-10 integer optionally surrounded by whitespace
(other than tab or newline) and optionally prefixed with a single `'+'` or
`'-'` sign, together with the integer value it denotes. -/
def WFIntField (fld : PyStr) (v : Int) : Prop :=
  ∃ ws1 sgn ds ws2 : PyStr,
    fld = ws1 ++ sgn ++ ds ++ ws2 ∧
    (∀ c ∈ ws1, fieldSpace c) ∧
    (∀ c ∈ ws2, fieldSpace c) ∧
    (sgn = [] ∨ sgn = ['+'] ∨ sgn = ['-']) ∧
    ds ≠ [] ∧
    (∀ c ∈ ds, c.isDigit = true) ∧
    v = signVal sgn * (digitsVal ds : Int)

section BasicLemmas

/-- Splitting on tabs always yields at least one field. -/
theorem splitTab_ne_nil (l : PyStr) : splitTab l ≠ [] := by
  cases l with
  | nil => simp [splitTab]
  | cons c rest =>
    simp only [splitTab]
    split
    · simp
    · split <;> simp

theorem joinTab_cons_cons (c : Char) (f : PyStr) (fs : List PyStr) :
    joinTab ((c :: f) :: fs) = c :: joinTab (f :: fs) := by
  cases fs <;> rfl

/-- Joining on tabs undoes splitting on tabs. -/
theorem joinTab_splitTab (l : PyStr) : joinTab (splitTab l) = l := by
  induction l with
  | nil => rfl
  | cons c rest ih =>
    simp only [splitTab]
    by_cases h : c = '\t'
    · subst h
      rw [if_pos rfl]
      obtain ⟨f, fs, hsplit⟩ : ∃ f fs, splitTab rest = f :: fs := by
        cases hs : splitTab rest with
        | nil => exact absurd hs (splitTab_ne_nil rest)
        | cons f fs => exact ⟨f, fs, rfl⟩
      rw [hsplit]
      have e : joinTab ([] :: f :: fs) = '\t' :: joinTab (f :: fs) := rfl
      rw [e, ← hsplit, ih]
    · rw [if_neg h]
      cases hs : splitTab rest with
      | nil => exact absurd hs (splitTab_ne_nil rest)
      | cons f fs => rw [joinTab_cons_cons, ← hs, ih]

end BasicLemmas

section EasyClaims

/-- Claim C8: for every input file consisting solely of comment lines (first
character `'#'`) and blank lines, `strings_from_data_columns` returns an empty
ColumnSet (zero columns, hence zero rows) and, being a total function in this
embedding, raises no error. -/
theorem C8_only_comments_and_blanks (file : List PyStr)
    (h : ∀ l ∈ file, l.head? = some '#' ∨ l = []) :
    strings_from_data_columns file = [] := by
  have hf : file.filter keepLine = [] := by
    rw [List.filter_eq_nil_iff]
    intro l hl
    rcases h l hl with h1 | h1
    · cases l with
      | nil => simp at h1
      | cons c cs =>
        simp only [List.head?] at h1
        injection h1 with h1
        subst h1
        simp [keepLine]
    · subst h1
      simp [keepLine]
  simp [strings_from_data_columns, survivingRows, hf, pyZip]

/-- Witness for C8 at a concrete file of two comment lines and a blank line. -/
theorem C8_witness :
    (∀ l ∈ [['#', 'a'], ([] : PyStr), ['#']], l.head? = some '#' ∨ l = []) ∧
    strings_from_data_columns [['#', 'a'], ([] : PyStr), ['#']] = [] :=
  ⟨by decide, C8_only_comments_and_blanks [['#', 'a'], [], ['#']] (by decide)⟩

/-- Claim C4: when the pixel column's first entry exceeds its last entry
(`start > stop`), the valid range is permanently empty: every frame,
regardless of its pixel count, logs a line of zero counts. -/
theorem C4_inverted_range_logs_nothing (pix : List Int)
    (h : stop_pixel pix < start_pixel pix) (reply : Reply) :
    dataLineFields (start_pixel pix) (stop_pixel pix) reply = [] ∧
    loggedCounts (start_pixel pix) (stop_pixel pix) reply = [] := by
  have hf : filteredFrame (start_pixel pix) (stop_pixel pix) reply = [] := by
    rw [filteredFrame, List.filter_eq_nil_iff]
    intro pc _
    simp only [decide_eq_true_eq, not_and]
    intro h1 h2
    omega
  exact ⟨by simp [dataLineFields, loggedCounts, hf], by simp [loggedCounts, hf]⟩

/-- Witness for C4 at `pix = [9, 2]` and a 3-pixel frame. -/
theorem C4_witness :
    stop_pixel [9, 2] < start_pixel [9, 2] ∧
    (dataLineFields (start_pixel [9, 2]) (stop_pixel [9, 2]) ⟨3, [4, 5, 6]⟩ = [] ∧
     loggedCounts (start_pixel [9, 2]) (stop_pixel [9, 2]) ⟨3, [4, 5, 6]⟩ = []) :=
  ⟨by decide, C4_inverted_range_logs_nothing [9, 2] (by decide) ⟨3, [4, 5, 6]⟩⟩

/-- Claim C7: the dict items surviving the range filter are in strictly
increasing pixel-number order, and the logged counts are exactly their count
components in that order (smallest pixel first). -/
theorem C7_counts_in_increasing_pixel_order (start stop : Int) (reply : Reply) :
    (filteredFrame start stop reply).Pairwise (fun p q => p.1 < q.1) ∧
    loggedCounts start stop reply = (filteredFrame start stop reply).map Prod.snd := by
  refine ⟨?_, rfl⟩
  have h1 : (frameDict reply).Pairwise (fun p q => p.1 < q.1) := by
    rw [frameDict]
    refine List.Pairwise.map _ (fun a b hab => ?_) (List.pairwise_lt_range _)
    simpa using by omega
  exact h1.filter _

/-- Claim C3: the range bounds are the first and last entries of the pixel
column in file order (not its numeric minimum and maximum: witnessed by
`[3, 9, 1]`, whose start exceeds a member and whose stop is below a member),
and a frame item survives the filter exactly when its pixel `p` satisfies
`start ≤ p ≤ stop`, both bounds inclusive. -/
theorem C3_range_bounds_first_last_inclusive (pix : List Int) (h : pix ≠ []) :
    start_pixel pix = pix.head h ∧
    stop_pixel pix = pix.getLast h ∧
    (∀ reply p c, (p, c) ∈ filteredFrame (start_pixel pix) (stop_pixel pix) reply ↔
      ((p, c) ∈ frameDict reply ∧ start_pixel pix ≤ p ∧ p ≤ stop_pixel pix)) ∧
    (∃ qix : List Int, qix ≠ [] ∧ (∃ q ∈ qix, q < start_pixel qix) ∧
      (∃ q ∈ qix, stop_pixel qix < q)) := by
  refine ⟨?_, ?_, ?_, ⟨[3, 9, 1], by decide, ⟨1, by decide, by decide⟩,
    ⟨9, by decide, by decide⟩⟩⟩
  · simp [start_pixel, List.headD_eq_head?, List.head?_eq_head h]
  · simp [stop_pixel, List.getLastD_eq_getLast?, List.getLast?_eq_getLast pix h]
  · intro reply p c
    simp [filteredFrame, List.mem_filter]

/-- Witness for C3 at the pixel column `[227, 364]` of the example map file. -/
theorem C3_witness :
    ([227, 364] : List Int) ≠ [] ∧
    start_pixel [227, 364] = 227 ∧ stop_pixel [227, 364] = 364 := by
  have h := C3_range_bounds_first_last_inclusive [227, 364] (by decide)
  exact ⟨by decide, by rw [h.1]; rfl, by rw [h.2.1]; rfl⟩

end EasyClaims

section Counterexamples

/-- Counterexample to claim C1: on the file with data rows `"1\t2"` and `"3"`
(unequal field counts), `strings_from_data_columns` raises nothing; it returns
the silently truncated ColumnSet `(("1", "3"),)`, whose column count 1 is
strictly below row 0's field count 2 (the field `"2"` is dropped). -/
theorem C1_counterexample :
    strings_from_data_columns [['1', '\t', '2'], ['3']] = [[['1'], ['3']]] ∧
    (strings_from_data_columns [['1', '\t', '2'], ['3']]).length <
      ((survivingRows [['1', '\t', '2'], ['3']]).getD 0 []).length := by
  decide

/-- Counterexample to claim C2: with the mapping file rows `"1\t10"` and
`"3\t30"` (pixel column `[1, 3]`, wavelength column `[10, 30]`) the header
line has 2 fields, but the data line logged for a 3-pixel frame has 3 fields
(the range `1..3` has 3 pixels while the file has only 2 rows), so the data
line's field count differs from the header's. -/
theorem C2_counterexample :
    ¬ ((dataLineFields (start_pixel [1, 3]) (stop_pixel [1, 3]) ⟨3, [5, 6, 7]⟩).length =
        (headerFields [10, 30]).length ∧
       ((headerFields [10, 30]).length : Int) = stop_pixel [1, 3] - start_pixel [1, 3] + 1) := by
  decide

/-- Counterexample to claim C5: with `ValidRange = (5, 10)` (so
`start ≤ stop`) and a short frame of `num_pixels = 3 < stop = 10`, the full
coverage line (a 10-pixel frame) has 6 fields and the short line has 0, a
discrepancy of 6, while the claim demands `stop - num_pixels = 7`. -/
theorem C5_counterexample :
    start_pixel [5, 10] ≤ stop_pixel [5, 10] ∧
    (3 : Int) < stop_pixel [5, 10] ∧
    ¬ (((dataLineFields (start_pixel [5, 10]) (stop_pixel [5, 10])
          ⟨10, [1, 2, 3, 4, 5, 6, 7, 8, 9, 10]⟩).length : Int) -
        ((dataLineFields (start_pixel [5, 10]) (stop_pixel [5, 10])
          ⟨3, [1, 2, 3]⟩).length : Int) =
        stop_pixel [5, 10] - (3 : Int)) := by
  decide

end Counterexamples

section PyZipLemmas

theorem minFieldCount_cons {α : Type} (r : List α) (rs : List (List α)) (h : rs ≠ []) :
    minFieldCount (r :: rs) = min r.length (minFieldCount rs) := by
  cases rs with
  | nil => exact absurd rfl h
  | cons s ss => rfl

theorem minFieldCount_eq_zero {α : Type} :
    ∀ (rs : List (List α)), rs.any (fun row => row.isEmpty) = true → minFieldCount rs = 0
  | [], h => by simp at h
  | r :: rs, h => by
    simp only [List.any_cons, Bool.or_eq_true] at h
    cases rs with
    | nil =>
      rcases h with h | h
      · rw [List.isEmpty_iff] at h
        simp [h, minFieldCount]
      · simp at h
    | cons s ss =>
      rw [minFieldCount_cons _ _ (by simp)]
      rcases h with h | h
      · rw [List.isEmpty_iff] at h
        simp [h]
      · rw [minFieldCount_eq_zero (s :: ss) (by simpa using h)]
        simp

theorem minFieldCount_tail {α : Type} :
    ∀ (rs : List (List α)), rs.any (fun row => row.isEmpty) = false → rs ≠ [] →
      minFieldCount (rs.map (fun row => row.tail)) + 1 = minFieldCount rs
  | [], _, h => absurd rfl h
  | [r], hne, _ => by
    simp only [List.any_cons, List.any_nil, Bool.or_false] at hne
    have hr : r ≠ [] := by simpa [List.isEmpty_iff] using hne
    have : r.tail.length + 1 = r.length := by
      cases r with
      | nil => exact absurd rfl hr
      | cons a l => simp
    simpa [minFieldCount] using this
  | r :: s :: ss, hne, _ => by
    simp only [List.any_cons, Bool.or_eq_false_iff] at hne
    obtain ⟨hr, hrest⟩ := hne
    have hrne : r ≠ [] := by simpa [List.isEmpty_iff] using hr
    have htl : r.tail.length + 1 = r.length := by
      cases r with
      | nil => exact absurd rfl hrne
      | cons a l => simp
    rw [List.map_cons, minFieldCount_cons _ _ (by simp),
      minFieldCount_cons _ _ (by simp),
      ← minFieldCount_tail (s :: ss) (by simpa using hrest) (by simp)]
    simp only [List.map_cons]
    omega

theorem length_pyZipAux {α : Type} [Inhabited α] :
    ∀ (r : List α) (rs : List (List α)), (pyZipAux r rs).length = minFieldCount (r :: rs)
  | [], rs => by
    cases rs with
    | nil => rfl
    | cons s ss =>
      rw [pyZipAux, minFieldCount_cons _ _ (by simp)]
      simp
  | x :: xs, rs => by
    rw [pyZipAux]
    by_cases h : rs.any (fun row => row.isEmpty) = true
    · rw [if_pos h]
      have hrs : rs ≠ [] := by
        rintro rfl
        simp at h
      rw [minFieldCount_cons _ _ hrs, minFieldCount_eq_zero rs h]
      simp
    · rw [if_neg h]
      have hfalse : rs.any (fun row => row.isEmpty) = false := by
        simp only [Bool.not_eq_true] at h
        exact h
      simp only [List.length_cons]
      rw [length_pyZipAux xs (rs.map (fun row => row.tail))]
      cases rs with
      | nil => simp [minFieldCount]
      | cons s ss =>
        rw [minFieldCount_cons xs _ (by simp), minFieldCount_cons (x :: xs) _ (by simp),
          ← minFieldCount_tail (s :: ss) hfalse (by simp)]
        simp only [List.map_cons, List.length_cons]
        omega

theorem length_of_mem_pyZipAux {α : Type} [Inhabited α] :
    ∀ (r : List α) (rs : List (List α)) (c : List α),
      c ∈ pyZipAux r rs → c.length = rs.length + 1
  | [], rs, c, h => by simp [pyZipAux] at h
  | x :: xs, rs, c, h => by
    rw [pyZipAux] at h
    by_cases hb : rs.any (fun row => row.isEmpty) = true
    · rw [if_pos hb] at h
      simp at h
    · rw [if_neg hb] at h
      rcases List.mem_cons.mp h with h1 | h1
      · subst h1
        simp
      · have := length_of_mem_pyZipAux xs (rs.map (fun row => row.tail)) c h1
        simpa using this

theorem headD_mem {α : Type} (l : List α) (h : l ≠ []) (d : α) : l.headD d ∈ l := by
  cases l with
  | nil => exact absurd rfl h
  | cons a t => simp

theorem mem_of_mem_pyZipAux {α : Type} [Inhabited α] :
    ∀ (r : List α) (rs : List (List α)) (col : List α) (x : α),
      col ∈ pyZipAux r rs → x ∈ col → x ∈ r ∨ ∃ row ∈ rs, x ∈ row
  | [], rs, col, x, hc, _ => by simp [pyZipAux] at hc
  | y :: ys, rs, col, x, hc, hx => by
    rw [pyZipAux] at hc
    by_cases hb : rs.any (fun row => row.isEmpty) = true
    · rw [if_pos hb] at hc
      simp at hc
    · rw [if_neg hb] at hc
      have hnonempty : ∀ row ∈ rs, row ≠ [] := by
        intro row hrow hempty
        exact hb (List.any_eq_true.mpr ⟨row, hrow, by simp [hempty]⟩)
      rcases List.mem_cons.mp hc with h1 | h1
      · subst h1
        rcases List.mem_cons.mp hx with h2 | h2
        · subst h2
          exact Or.inl (List.mem_cons_self _ _)
        · obtain ⟨row, hrow, heq⟩ := List.mem_map.mp h2
          exact Or.inr ⟨row, hrow, heq ▸ headD_mem row (hnonempty row hrow) default⟩
      · rcases mem_of_mem_pyZipAux ys (rs.map (fun row => row.tail)) col x h1 hx with h2 | h2
        · exact Or.inl (List.mem_cons_of_mem _ h2)
        · obtain ⟨row', hrow', hx'⟩ := h2
          obtain ⟨row, hrow, heq⟩ := List.mem_map.mp hrow'
          refine Or.inr ⟨row, hrow, ?_⟩
          rw [← heq] at hx'
          exact List.mem_of_mem_tail hx'

theorem minFieldCount_le_of_mem {α : Type} :
    ∀ {rs : List (List α)} {r : List α}, r ∈ rs → minFieldCount rs ≤ r.length := by
  intro rs
  induction rs with
  | nil =>
    intro r h
    simp at h
  | cons s ss ih =>
    intro r h
    rcases List.mem_cons.mp h with h1 | h1
    · subst h1
      cases ss with
      | nil => simp [minFieldCount]
      | cons t ts =>
        rw [minFieldCount_cons _ _ (by simp)]
        exact min_le_left _ _
    · cases ss with
      | nil => simp at h1
      | cons t ts =>
        rw [minFieldCount_cons _ _ (by simp)]
        exact le_trans (min_le_right _ _) (ih h1)

/-- The column count of the parsed result is the minimum field count over the
surviving rows (Python `zip` truncates to the shortest input). -/
theorem strings_length (file : List PyStr) :
    (strings_from_data_columns file).length = minFieldCount (survivingRows file) := by
  rw [strings_from_data_columns]
  cases survivingRows file with
  | nil => rfl
  | cons r rs => exact length_pyZipAux r rs

/-- Every returned column has one entry per surviving row. -/
theorem strings_col_length (file : List PyStr) :
    ∀ col ∈ strings_from_data_columns file, col.length = (survivingRows file).length := by
  rw [strings_from_data_columns]
  cases survivingRows file with
  | nil =>
    intro col hc
    simp [pyZip] at hc
  | cons r rs =>
    intro col hc
    rw [pyZip] at hc
    rw [length_of_mem_pyZipAux r rs col hc]
    simp

/-- Every entry of every returned column is a field of some surviving row. -/
theorem mem_row_of_mem_strings (file : List PyStr) (col : List PyStr) (x : PyStr)
    (hc : col ∈ strings_from_data_columns file) (hx : x ∈ col) :
    ∃ row ∈ survivingRows file, x ∈ row := by
  rw [strings_from_data_columns] at hc
  cases h : survivingRows file with
  | nil =>
    rw [h] at hc
    simp [pyZip] at hc
  | cons r rs =>
    rw [h, pyZip] at hc
    rcases mem_of_mem_pyZipAux r rs col x hc hx with h1 | h1
    · exact ⟨r, by simp, h1⟩
    · obtain ⟨row, hrow, hxr⟩ := h1
      exact ⟨row, by simp [hrow], hxr⟩

end PyZipLemmas

section TruncationClaims

/-- Claim C9: for every input file, the returned ColumnSet has column count
equal to the minimum field count over the surviving rows (fields beyond it are
silently dropped by `zip`), and every returned column has length exactly `R`,
the number of surviving rows. -/
theorem C9_min_field_count_and_column_length (file : List PyStr) :
    (strings_from_data_columns file).length = minFieldCount (survivingRows file) ∧
    ∀ col ∈ strings_from_data_columns file, col.length = (survivingRows file).length :=
  ⟨strings_length file, strings_col_length file⟩

/-- Claim C1 amended: on a file with two surviving rows of different field
counts, `strings_from_data_columns` raises nothing; it returns a silently
truncated ColumnSet whose column count is strictly smaller than some surviving
row's field count (that row's extra fields are dropped), with every column
still of length `R`. -/
theorem C1_amended_zip_truncates (file : List PyStr)
    (h : ∃ r1 ∈ survivingRows file, ∃ r2 ∈ survivingRows file, r1.length ≠ r2.length) :
    (∃ r ∈ survivingRows file, (strings_from_data_columns file).length < r.length) ∧
    ∀ col ∈ strings_from_data_columns file, col.length = (survivingRows file).length := by
  obtain ⟨r1, hr1, r2, hr2, hne⟩ := h
  refine ⟨?_, strings_col_length file⟩
  rw [strings_length file]
  rcases Nat.lt_or_ge r1.length r2.length with hlt | hge
  · exact ⟨r2, hr2, lt_of_le_of_lt (minFieldCount_le_of_mem hr1) hlt⟩
  · have hlt : r2.length < r1.length := lt_of_le_of_ne hge (fun e => hne e.symm)
    exact ⟨r1, hr1, lt_of_le_of_lt (minFieldCount_le_of_mem hr2) hlt⟩

/-- Witness for the amended C1 at the file with rows `"1\t2"` and `"3"`. -/
theorem C1_amended_witness :
    (∃ r1 ∈ survivingRows [['1', '\t', '2'], ['3']],
      ∃ r2 ∈ survivingRows [['1', '\t', '2'], ['3']], r1.length ≠ r2.length) ∧
    ((∃ r ∈ survivingRows [['1', '\t', '2'], ['3']],
        (strings_from_data_columns [['1', '\t', '2'], ['3']]).length < r.length) ∧
     ∀ col ∈ strings_from_data_columns [['1', '\t', '2'], ['3']],
        col.length = (survivingRows [['1', '\t', '2'], ['3']]).length) :=
  ⟨by decide, C1_amended_zip_truncates [['1', '\t', '2'], ['3']] (by decide)⟩

end TruncationClaims

section TransposeLemmas

theorem tail_getD {α : Type} (l : List α) (n : Nat) (d : α) :
    l.tail.getD n d = l.getD (n + 1) d := by
  cases l with
  | nil => rfl
  | cons a t => rfl

theorem getD_zero_headD {α : Type} (l : List α) (d : α) : l.getD 0 d = l.headD d := by
  cases l <;> rfl

theorem map_headD_getD {α : Type} [Inhabited α] :
    ∀ (rs : List (List α)) (k : Nat),
      (rs.map (fun row => row.headD default)).getD k default = (rs.getD k []).headD default
  | [], k => by simp
  | r :: rs, 0 => rfl
  | r :: rs, k + 1 => by
    simp only [List.map_cons, List.getD_cons_succ]
    exact map_headD_getD rs k

theorem map_tail_getD {α : Type} :
    ∀ (rs : List (List α)) (k i : Nat) (d : α),
      ((rs.map (fun row => row.tail)).getD k []).getD i d = (rs.getD k []).getD (i + 1) d
  | [], k, i, d => by simp
  | r :: rs, 0, i, d => tail_getD r i d
  | r :: rs, k + 1, i, d => by
    simp only [List.map_cons, List.getD_cons_succ]
    exact map_tail_getD rs k i d

theorem getD_getD_pyZipAux {α : Type} [Inhabited α] :
    ∀ (r : List α) (rs : List (List α)) (i j : Nat), i < (pyZipAux r rs).length →
      ((pyZipAux r rs).getD i []).getD j default = ((r :: rs).getD j []).getD i default
  | [], rs, i, j, h => by simp [pyZipAux] at h
  | x :: xs, rs, i, j, h => by
    rw [pyZipAux] at h ⊢
    by_cases hb : rs.any (fun row => row.isEmpty) = true
    · rw [if_pos hb] at h
      simp at h
    · rw [if_neg hb] at h ⊢
      cases i with
      | zero =>
        cases j with
        | zero => rfl
        | succ k =>
          simp only [List.getD_cons_zero, List.getD_cons_succ]
          rw [map_headD_getD rs k, getD_zero_headD]
      | succ i' =>
        simp only [List.length_cons] at h
        simp only [List.getD_cons_succ]
        rw [getD_getD_pyZipAux xs (rs.map (fun row => row.tail)) i' j (by omega)]
        cases j with
        | zero => rfl
        | succ k =>
          simp only [List.getD_cons_succ]
          exact map_tail_getD rs k i' default

theorem getD_getD_pyZip {α : Type} [Inhabited α] (rows : List (List α)) (i j : Nat)
    (hi : i < (pyZip rows).length) :
    ((pyZip rows).getD i []).getD j default = (rows.getD j []).getD i default := by
  cases rows with
  | nil => simp [pyZip] at hi
  | cons r rs => exact getD_getD_pyZipAux r rs i j hi

theorem minFieldCount_const {α : Type} :
    ∀ (rs : List (List α)) (C : Nat), rs ≠ [] → (∀ r ∈ rs, r.length = C) →
      minFieldCount rs = C
  | [], _, h, _ => absurd rfl h
  | [r], C, _, hall => by simp [minFieldCount, hall r (by simp)]
  | r :: s :: ss, C, _, hall => by
    rw [minFieldCount_cons _ _ (by simp),
      minFieldCount_const (s :: ss) C (by simp)
        (fun t ht => hall t (List.mem_cons_of_mem _ ht)),
      hall r (by simp)]
    simp

theorem length_pyZip_of_const {α : Type} [Inhabited α] (rows : List (List α)) (C : Nat)
    (h : ∀ row ∈ rows, row.length = C) (hne : rows ≠ []) : (pyZip rows).length = C := by
  cases rows with
  | nil => exact absurd rfl hne
  | cons r rs =>
    rw [pyZip, length_pyZipAux, minFieldCount_const _ C (by simp) h]

theorem pyZip_col_length {α : Type} [Inhabited α] (rows : List (List α)) :
    ∀ c ∈ pyZip rows, c.length = rows.length := by
  cases rows with
  | nil =>
    intro c hc
    simp [pyZip] at hc
  | cons r rs =>
    intro c hc
    rw [pyZip] at hc
    rw [length_of_mem_pyZipAux r rs c hc]
    simp

/-- Transposing twice with Python `zip` recovers a rectangular row list. -/
theorem pyZip_pyZip {α : Type} [Inhabited α] (rows : List (List α)) (C : Nat) (hC : 0 < C)
    (h : ∀ row ∈ rows, row.length = C) : pyZip (pyZip rows) = rows := by
  rcases eq_or_ne rows [] with rfl | hne
  · rfl
  have h1 : (pyZip rows).length = C := length_pyZip_of_const rows C h hne
  have h2 : ∀ c ∈ pyZip rows, c.length = rows.length := pyZip_col_length rows
  have hzne : pyZip rows ≠ [] := by
    intro e
    rw [e] at h1
    simp at h1
    omega
  have h3 : (pyZip (pyZip rows)).length = rows.length :=
    length_pyZip_of_const (pyZip rows) rows.length h2 hzne
  apply List.ext_getElem (by rw [h3])
  intro j hj1 hj2
  have hrowj : rows[j].length = C := h _ (List.getElem_mem _)
  apply List.ext_getElem
  · rw [pyZip_col_length (pyZip rows) _ (List.getElem_mem _), h1, hrowj]
  intro i hi1 hi2
  have hiC : i < (pyZip rows).length := by
    rw [h1]
    rw [pyZip_col_length (pyZip rows) _ (List.getElem_mem _), h1] at hi1
    exact hi1
  have key : ((pyZip (pyZip rows)).getD j []).getD i default =
      (rows.getD j []).getD i default := by
    rw [getD_getD_pyZip (pyZip rows) j i hj1]
    exact getD_getD_pyZip rows i j hiC
  rw [List.getD_eq_getElem _ _ hj1, List.getD_eq_getElem _ _ hi1,
    List.getD_eq_getElem _ _ hj2, List.getD_eq_getElem _ _ hi2] at key
  exact key

end TransposeLemmas

section RoundTripClaim

/-- Claim C6: for a well-formed input whose surviving rows all have the same
field count `C`, transposing the parsed columns back to rows and joining each
row with tabs reconstructs exactly the surviving data lines of the file, in
order, with no field dropped or reordered. -/
theorem C6_parse_rejoin_round_trip (file : List PyStr) (C : Nat)
    (h : ∀ r ∈ survivingRows file, r.length = C) :
    (pyZip (strings_from_data_columns file)).map joinTab = file.filter keepLine := by
  rcases eq_or_ne (survivingRows file) [] with he | hne
  · have hf : file.filter keepLine = [] := by
      rw [survivingRows] at he
      exact List.map_eq_nil_iff.mp he
    rw [strings_from_data_columns, he, hf]
    rfl
  · have hC : 0 < C := by
      obtain ⟨r, hr⟩ := List.exists_mem_of_ne_nil _ hne
      have h1 := h r hr
      rw [survivingRows] at hr
      obtain ⟨l, _, rfl⟩ := List.mem_map.mp hr
      have h2 := splitTab_ne_nil l
      rw [← h1]
      exact List.length_pos.mpr h2
    rw [strings_from_data_columns, pyZip_pyZip (survivingRows file) C hC h,
      survivingRows, List.map_map]
    have hid : joinTab ∘ splitTab = id := funext joinTab_splitTab
    rw [hid, List.map_id]

/-- Witness for C6 at a small file with comments, blanks and two data rows. -/
theorem C6_witness :
    (∀ r ∈ survivingRows [['#', 'c'], ['1', '\t', '2'], ([] : PyStr), ['3', '\t', '4']],
      r.length = 2) ∧
    (pyZip (strings_from_data_columns
        [['#', 'c'], ['1', '\t', '2'], ([] : PyStr), ['3', '\t', '4']])).map joinTab =
      [['#', 'c'], ['1', '\t', '2'], ([] : PyStr), ['3', '\t', '4']].filter keepLine :=
  ⟨by decide,
   C6_parse_rejoin_round_trip [['#', 'c'], ['1', '\t', '2'], [], ['3', '\t', '4']] 2
     (by decide)⟩

end RoundTripClaim

section CountingLemmas

theorem countP_range_band (a b : Int) (ha : 1 ≤ a) :
    ∀ N : Nat, (List.range N).countP
        (fun (i : Nat) => decide (a ≤ (i : Int) + 1 ∧ (i : Int) + 1 ≤ b)) =
      (min b (N : Int) - a + 1).toNat := by
  intro N
  induction N with
  | zero =>
    simp only [List.range_zero, List.countP_nil, Nat.cast_zero]
    omega
  | succ n ih =>
    rw [List.range_succ, List.countP_append, ih]
    simp only [List.countP_cons, List.countP_nil, Nat.cast_add, Nat.cast_one, Nat.zero_add]
    by_cases h : a ≤ (n : Int) + 1 ∧ (n : Int) + 1 ≤ b
    · rw [decide_eq_true h]
      simp
      omega
    · rw [decide_eq_false h]
      simp
      omega

/-- The number of counts logged for a frame: the pixels `p = i + 1` with
`i < num_pixels` surviving `start ≤ p ≤ stop`, which for `1 ≤ start` is the
size of the interval `[start, min stop num_pixels]`. -/
theorem loggedCounts_length (a b : Int) (r : Reply) (ha : 1 ≤ a)
    (hlen : r.pixels.length = r.num_pixels) :
    (loggedCounts a b r).length = (min b (r.num_pixels : Int) - a + 1).toNat := by
  rw [loggedCounts, List.length_map, filteredFrame, ← List.countP_eq_length_filter,
    frameDict, List.countP_map, hlen, Nat.min_self]
  exact countP_range_band a b ha r.num_pixels

end CountingLemmas

section LoggingClaims

/-- Claim C2 amended: the header line holds one field per mapping-file row, so
the claimed invariant holds provided the pixel column is the contiguous run
`start, start+1, ..., stop` (one wavelength per pixel of the range), the range
starts at a pixel `≥ 1`, and the frame covers the range
(`num_pixels ≥ stop`, with `pixels` of declared length): then every data line
has the same field count as the header, equal to `stop - start + 1`, the
number of pixels in ValidRange. -/
theorem C2_amended_field_counts (a : Int) (k : Nat) (pix wav : List Int) (r : Reply)
    (hpix : pix = (List.range k).map (fun (i : Nat) => a + (i : Int)))
    (hk : 0 < k) (hwav : wav.length = k) (ha : 1 ≤ a)
    (hlen : r.pixels.length = r.num_pixels)
    (hcov : stop_pixel pix ≤ (r.num_pixels : Int)) :
    (dataLineFields (start_pixel pix) (stop_pixel pix) r).length =
      (headerFields wav).length ∧
    ((headerFields wav).length : Int) = stop_pixel pix - start_pixel pix + 1 := by
  obtain ⟨k', rfl⟩ : ∃ k', k = k' + 1 := ⟨k - 1, by omega⟩
  have hstart : start_pixel pix = a := by
    subst hpix
    rw [start_pixel, List.range_succ_eq_map]
    simp
  have hstop : stop_pixel pix = a + (k' : Int) := by
    subst hpix
    rw [stop_pixel, List.range_succ, List.map_append]
    simp
  rw [hstop] at hcov
  rw [hstart, hstop]
  constructor
  · rw [dataLineFields, List.length_map, loggedCounts_length a _ r ha hlen,
      headerFields, List.length_map, hwav]
    omega
  · rw [headerFields, List.length_map, hwav]
    omega

/-- Witness for the amended C2: map rows `1↦10, 2↦20`, frame of 2 pixels. -/
theorem C2_amended_witness :
    ([1, 2] : List Int) = (List.range 2).map (fun (i : Nat) => 1 + (i : Int)) ∧
    (dataLineFields (start_pixel [1, 2]) (stop_pixel [1, 2]) ⟨2, [7, 8]⟩).length =
      (headerFields [10, 20]).length ∧
    ((headerFields [10, 20]).length : Int) = stop_pixel [1, 2] - start_pixel [1, 2] + 1 :=
  ⟨by decide,
   C2_amended_field_counts 1 2 [1, 2] [10, 20] ⟨2, [7, 8]⟩ (by decide) (by decide)
     (by decide) (by decide) (by decide) (by decide)⟩

/-- Claim C5 amended: for a ValidRange with `1 ≤ start ≤ stop` and a short
frame (`num_pixels < stop`) that still reaches the start of the range
(`num_pixels ≥ start - 1`), the logged line is strictly shorter than the line
of a frame covering the full range, and the field-count discrepancy is exactly
`stop - num_pixels`.  (When `num_pixels < start - 1` the discrepancy is the
full range size `stop - start + 1` instead, as the counterexample shows.) -/
theorem C5_amended_short_frame_discrepancy (pix : List Int) (rS rF : Reply)
    (hss : start_pixel pix ≤ stop_pixel pix)
    (h1 : 1 ≤ start_pixel pix)
    (h2 : start_pixel pix - 1 ≤ (rS.num_pixels : Int))
    (hshort : (rS.num_pixels : Int) < stop_pixel pix)
    (hlenS : rS.pixels.length = rS.num_pixels)
    (hlenF : rF.pixels.length = rF.num_pixels)
    (hfull : stop_pixel pix ≤ (rF.num_pixels : Int)) :
    (dataLineFields (start_pixel pix) (stop_pixel pix) rS).length <
      (dataLineFields (start_pixel pix) (stop_pixel pix) rF).length ∧
    ((dataLineFields (start_pixel pix) (stop_pixel pix) rF).length : Int) -
      ((dataLineFields (start_pixel pix) (stop_pixel pix) rS).length : Int) =
      stop_pixel pix - (rS.num_pixels : Int) := by
  rw [dataLineFields, List.length_map, dataLineFields, List.length_map,
    loggedCounts_length _ _ rS h1 hlenS, loggedCounts_length _ _ rF h1 hlenF]
  constructor <;> omega

/-- Witness for the amended C5: range `(2, 5)`, short frame of 3 pixels,
full frame of 5 pixels; the discrepancy is `5 - 3 = 2`. -/
theorem C5_amended_witness :
    start_pixel [2, 5] ≤ stop_pixel [2, 5] ∧
    (dataLineFields (start_pixel [2, 5]) (stop_pixel [2, 5]) ⟨3, [1, 2, 3]⟩).length <
      (dataLineFields (start_pixel [2, 5]) (stop_pixel [2, 5]) ⟨5, [1, 2, 3, 4, 5]⟩).length ∧
    ((dataLineFields (start_pixel [2, 5]) (stop_pixel [2, 5]) ⟨5, [1, 2, 3, 4, 5]⟩).length : Int) -
      ((dataLineFields (start_pixel [2, 5]) (stop_pixel [2, 5]) ⟨3, [1, 2, 3]⟩).length : Int) =
      stop_pixel [2, 5] - ((3 : Nat) : Int) :=
  ⟨by decide,
   (C5_amended_short_frame_discrepancy [2, 5] ⟨3, [1, 2, 3]⟩ ⟨5, [1, 2, 3, 4, 5]⟩
     (by decide) (by decide) (by decide) (by decide) (by decide) (by decide) (by decide)).1,
   (C5_amended_short_frame_discrepancy [2, 5] ⟨3, [1, 2, 3]⟩ ⟨5, [1, 2, 3, 4, 5]⟩
     (by decide) (by decide) (by decide) (by decide) (by decide) (by decide) (by decide)).2⟩

end LoggingClaims

section IntParsing

theorem not_space_of_digit (c : Char) (h : c.isDigit = true) : isPySpace c = false := by
  rw [isPySpace]
  by_contra hc
  simp only [Bool.or_eq_true, decide_eq_true_eq, Bool.not_eq_false] at hc
  rcases hc with ((((h1 | h1) | h1) | h1) | h1) | h1 <;> (subst h1; simp [Char.isDigit] at h)

theorem digit_not_sign (c : Char) (h : c.isDigit = true) : ¬(c = '+' ∨ c = '-') := by
  rintro (rfl | rfl) <;> simp [Char.isDigit] at h

theorem dropWhile_of_head_not (p : Char → Bool) (c : Char) (l : PyStr) (h : p c = false) :
    (c :: l).dropWhile p = c :: l := by
  rw [List.dropWhile_cons, if_neg]
  simp [h]

/-- Stripping whitespace around a block whose first and last characters are
not whitespace removes exactly the surrounding whitespace. -/
theorem pyStrip_eq (ws1 mid ws2 : PyStr)
    (h1 : ∀ c ∈ ws1, isPySpace c = true)
    (h2 : ∀ c ∈ ws2, isPySpace c = true)
    (hm1 : ∀ c : Char, mid.head? = some c → isPySpace c = false)
    (hm2 : ∀ c : Char, mid.getLast? = some c → isPySpace c = false)
    (hmne : mid ≠ []) :
    pyStrip (ws1 ++ (mid ++ ws2)) = mid := by
  obtain ⟨c, rest, rfl⟩ : ∃ c rest, mid = c :: rest := by
    cases mid with
    | nil => exact absurd rfl hmne
    | cons c rest => exact ⟨c, rest, rfl⟩
  have hstep1 : (ws1 ++ (c :: rest ++ ws2)).dropWhile isPySpace = c :: rest ++ ws2 := by
    rw [List.dropWhile_append, if_pos]
    · rw [List.cons_append, dropWhile_of_head_not _ _ _ (hm1 c rfl)]
    · simp [List.dropWhile_eq_nil_iff.mpr h1]
  have hlast : ∀ d : Char, (c :: rest).reverse.head? = some d → isPySpace d = false := by
    intro d hd
    rw [List.head?_reverse] at hd
    exact hm2 d hd
  obtain ⟨e, tl, he⟩ : ∃ e tl, (c :: rest).reverse = e :: tl := by
    have hrne : (c :: rest).reverse ≠ [] := by simp
    cases hr : (c :: rest).reverse with
    | nil => exact absurd hr hrne
    | cons e tl => exact ⟨e, tl, rfl⟩
  have hstep2 : (c :: rest ++ ws2).reverse.dropWhile isPySpace = (c :: rest).reverse := by
    rw [List.reverse_append, List.dropWhile_append, if_pos]
    · rw [he, dropWhile_of_head_not _ _ _ (hlast e (by rw [he]; rfl))]
    · simp [List.dropWhile_eq_nil_iff.mpr (fun x hx => h2 x (List.mem_reverse.mp hx))]
  rw [pyStrip, hstep1, hstep2, List.reverse_reverse]

theorem getLast?_mem_of_ne_nil (l : PyStr) (c : Char) (h : l.getLast? = some c) : c ∈ l := by
  cases l with
  | nil => simp at h
  | cons a t =>
    rw [List.getLast?_eq_getLast (a :: t) (by simp)] at h
    injection h with h
    rw [← h]
    exact List.getLast_mem (by simp)

/-- The model of Python `int` succeeds with the denoted value on every
well-formed integer field. -/
theorem pyInt_of_WF (fld : PyStr) (v : Int) (h : WFIntField fld v) : pyInt fld = some v := by
  obtain ⟨ws1, sgn, ds, ws2, rfl, hw1, hw2, hsgn, hds, hdig, hv⟩ := h
  obtain ⟨d, dt, rfl⟩ : ∃ d dt, ds = d :: dt := by
    cases ds with
    | nil => exact absurd rfl hds
    | cons d dt => exact ⟨d, dt, rfl⟩
  have hs1 : ∀ c ∈ ws1, isPySpace c = true := fun c hc => (hw1 c hc).1
  have hs2 : ∀ c ∈ ws2, isPySpace c = true := fun c hc => (hw2 c hc).1
  have hdhead : (d :: dt).head? = some d := rfl
  have hmid_ne : sgn ++ (d :: dt) ≠ [] := by simp
  have hhead : ∀ c : Char, (sgn ++ (d :: dt)).head? = some c → isPySpace c = false := by
    intro c hc
    rcases hsgn with rfl | rfl | rfl
    · simp only [List.nil_append] at hc
      injection hc with hc
      subst hc
      exact not_space_of_digit d (hdig d (by simp))
    · injection hc with hc
      subst hc
      rfl
    · injection hc with hc
      subst hc
      rfl
  have hlastd : ∀ c : Char, (sgn ++ (d :: dt)).getLast? = some c → isPySpace c = false := by
    intro c hc
    rw [List.getLast?_append_of_ne_nil _ (by simp)] at hc
    have := getLast?_mem_of_ne_nil _ c hc
    exact not_space_of_digit c (hdig c this)
  have hstrip : pyStrip (ws1 ++ sgn ++ (d :: dt) ++ ws2) = sgn ++ (d :: dt) := by
    have hre : ws1 ++ sgn ++ (d :: dt) ++ ws2 = ws1 ++ ((sgn ++ (d :: dt)) ++ ws2) := by
      simp [List.append_assoc]
    rw [hre]
    exact pyStrip_eq ws1 (sgn ++ (d :: dt)) ws2 hs1 hs2 hhead hlastd hmid_ne
  have hne : (d :: dt : PyStr) ≠ [] := by simp
  rcases hsgn with rfl | rfl | rfl
  · simp only [List.nil_append] at hstrip
    rw [pyInt, hstrip]
    simp only
    have hnsign : ¬(d = '+' ∨ d = '-') := digit_not_sign d (hdig d (by simp))
    rw [if_neg hnsign, if_pos ⟨hne, hdig⟩, hv, signVal]
    have hd : ¬ d = '-' := fun hmm => hnsign (Or.inr hmm)
    rw [if_neg hd, if_neg (by simp)]
  · rw [pyInt, hstrip]
    simp +decide only [List.cons_append, List.nil_append]
    rw [if_pos ⟨hne, hdig⟩, hv, signVal]
    simp +decide
  · rw [pyInt, hstrip]
    simp +decide only [List.cons_append, List.nil_append]
    rw [if_pos ⟨hne, hdig⟩, hv, signVal]
    simp +decide

theorem mapIntCol_of_WF :
    ∀ (col : List PyStr), (∀ fld ∈ col, ∃ v, WFIntField fld v) →
      ∃ vs, mapIntCol col = some vs ∧ List.Forall₂ WFIntField col vs
  | [], _ => ⟨[], rfl, List.Forall₂.nil⟩
  | s :: rest, h => by
    obtain ⟨v, hv⟩ := h s (by simp)
    obtain ⟨vs, hvs, hf⟩ := mapIntCol_of_WF rest (fun f hfm => h f (by simp [hfm]))
    refine ⟨v :: vs, ?_, List.Forall₂.cons hv hf⟩
    rw [mapIntCol, pyInt_of_WF s v hv, hvs]

theorem mapIntCols_of_WF :
    ∀ (cols : List (List PyStr)), (∀ col ∈ cols, ∀ fld ∈ col, ∃ v, WFIntField fld v) →
      ∃ icols, mapIntCols cols = some icols ∧
        List.Forall₂ (List.Forall₂ WFIntField) cols icols
  | [], _ => ⟨[], rfl, List.Forall₂.nil⟩
  | c :: cs, h => by
    obtain ⟨vs, hvs, hf⟩ := mapIntCol_of_WF c (h c (by simp))
    obtain ⟨icols, hicols, hff⟩ :=
      mapIntCols_of_WF cs (fun col hc => h col (by simp [hc]))
    refine ⟨vs :: icols, ?_, List.Forall₂.cons hf hff⟩
    rw [mapIntCols, hvs, hicols]

end IntParsing

section IntClaim

/-- Claim C10: when every field of every surviving row is a base-10 integer
optionally surrounded by whitespace (other than tab or newline) and optionally
prefixed with a single `'+'` or `'-'` sign, `ints_from_data_columns` succeeds
(no format error) and returns the corresponding integer values, column by
column and entry by entry. -/
theorem C10_integer_fields_parse (file : List PyStr)
    (h : ∀ row ∈ survivingRows file, ∀ fld ∈ row, ∃ v, WFIntField fld v) :
    ∃ cols, ints_from_data_columns file = some cols ∧
      List.Forall₂ (List.Forall₂ WFIntField) (strings_from_data_columns file) cols := by
  obtain ⟨cols, hc, hf⟩ :=
    mapIntCols_of_WF (strings_from_data_columns file)
      (fun col hcol fld hfld => by
        obtain ⟨row, hrow, hmem⟩ := mem_row_of_mem_strings file col fld hcol hfld
        exact h row hrow fld hmem)
  exact ⟨cols, by rw [ints_from_data_columns, hc], hf⟩

/-- Witness for C10 at the one-line file `"+42\t 7 "`. -/
theorem C10_witness :
    ∃ cols, ints_from_data_columns [['+', '4', '2', '\t', ' ', '7', ' ']] = some cols ∧
      List.Forall₂ (List.Forall₂ WFIntField)
        (strings_from_data_columns [['+', '4', '2', '\t', ' ', '7', ' ']]) cols := by
  refine C10_integer_fields_parse [['+', '4', '2', '\t', ' ', '7', ' ']] ?_
  intro row hrow fld hfld
  have hrows : survivingRows [['+', '4', '2', '\t', ' ', '7', ' ']] =
      [[['+', '4', '2'], [' ', '7', ' ']]] := by decide
  rw [hrows] at hrow
  simp only [List.mem_singleton] at hrow
  subst hrow
  simp only [List.mem_cons, List.mem_singleton, List.not_mem_nil, or_false] at hfld
  have hsp : ∀ c ∈ ([' '] : PyStr), fieldSpace c := by
    intro c hc
    simp only [List.mem_singleton] at hc
    subst hc
    exact ⟨rfl, by decide, by decide⟩
  rcases hfld with rfl | rfl
  · exact ⟨42, [], ['+'], ['4', '2'], [], by simp, by simp, by simp,
      Or.inr (Or.inl rfl), by simp, by decide, by decide⟩
  · exact ⟨7, [' '], [], ['7'], [' '], by simp, hsp, hsp,
      Or.inl rfl, by simp, by decide, by decide⟩

end IntClaim

end MapExample
